import Mathlib

/-!
Verification of the Heston conditional Monte-Carlo engine (`pyfeng/heston_mc.py`).

The Python code is embedded shallowly over `ℝ`:
* model parameters (`self.mr`, `self.theta`, `self.vov`, `self.rho`, `self.sigma`)
  become the fields of a `Heston` structure;
* every random draw consumed from a numpy random stream becomes an explicit
  argument (a single real/natural number, or a stream `ℕ → ℝ` indexed by the
  time step when the code draws once per step);
* the external library functions `scipy.stats.norm.cdf` and
  `scipy.special.iv` (modified Bessel function of the first kind) are not part
  of the repository; they are taken as abstract function parameters
  (`normCdf : ℝ → ℝ`, `besselI : ℝ → ℝ → ℝ`);
* the per-path vectorized numpy operations act componentwise, so they are
  embedded path-by-path as scalar functions.
-/

/-- Heston model parameters (`sv.SvABC` attributes used by `heston_mc.py`):
mean reversion `mr`, long-run variance `theta`, vol-of-vol `vov`,
correlation `rho`, initial variance `sigma`. -/
structure Heston where
  mr : ℝ
  theta : ℝ
  vov : ℝ
  rho : ℝ
  sigma : ℝ

/-- `HestonMcABC.chi_dim`: `4 * theta * mr / vov**2`. -/
noncomputable def chi_dim (p : Heston) : ℝ :=
  4 * p.theta * p.mr / p.vov ^ 2

/-- `HestonMcABC.chi_lambda`: `4 * sigma * mr / vov**2 / (exp(mr*df) - 1)`
(the parameter is named `df` in the source although it is a time step). -/
noncomputable def chi_lambda (p : Heston) (df : ℝ) : ℝ :=
  4 * p.sigma * p.mr / p.vov ^ 2 / (Real.exp (p.mr * df) - 1)

/-- `HestonMcABC.phi_exp`: returns `(phi, exp)` with `exp = exp(-mr*texp/2)`
and `phi = 4*mr / vov**2 / (1/exp - exp)`. -/
noncomputable def phi_exp (p : Heston) (texp : ℝ) : ℝ × ℝ :=
  let e := Real.exp (-(p.mr * texp) / 2)
  (4 * p.mr / p.vov ^ 2 / (1 / e - e), e)

/-- The noncentrality `chi_nonc = var_0 * exp * phi` computed inside
`var_step_ncx2` / `var_step_ncx2_eta` and passed to the RNG. -/
noncomputable def chi_nonc (p : Heston) (var_0 dt : ℝ) : ℝ :=
  let pe := phi_exp p dt
  var_0 * pe.2 * pe.1

/-- `HestonMcABC.var_mv`: closed-form mean and variance of `V(t+dt)` given
`V(t) = var_0`. -/
noncomputable def var_mv (p : Heston) (var_0 dt : ℝ) : ℝ × ℝ :=
  let expo := Real.exp (-(p.mr * dt))
  let m := p.theta + (var_0 - p.theta) * expo
  let s2 := (var_0 * expo + p.theta * (1 - expo) / 2) * (p.vov ^ 2 * (1 - expo) / p.mr)
  (m, s2)

/-- `HestonMcABC.var_step_euler`: Euler/Milstein step.  `zz` is the draw
returned by `self.rv_normal(spawn=0)`.  Negative results are floored at zero
(`var_t[var_t < 0] = 0`). -/
noncomputable def var_step_euler (p : Heston) (var_0 dt zz : ℝ) (milstein : Bool) : ℝ :=
  let v1 := var_0 + p.mr * (p.theta - var_0) * dt + Real.sqrt var_0 * p.vov * zz
  let v2 := if milstein then v1 + 0.25 * p.vov ^ 2 * (zz ^ 2 - dt) else v1
  if v2 < 0 then 0 else v2

/-- `HestonMcABC.var_step_ncx2`: the RNG `noncentral_chisquare(df, nonc)` is
modelled by the abstract draw function `ncx2D`; the step returns
`(exp/phi) * ncx2D df nonc`. -/
noncomputable def var_step_ncx2 (p : Heston) (ncx2D : ℝ → ℝ → ℝ) (var_0 dt : ℝ) : ℝ :=
  let pe := phi_exp p dt
  (pe.2 / pe.1) * ncx2D (chi_dim p) (chi_nonc p var_0 dt)

/-- `HestonMcABC.var_step_ncx2_eta`: Poisson-mixture gamma step.  The RNG
draws `poisson(nonc/2)` and `standard_gamma(df/2 + pois)` are modelled by the
abstract draw functions `poisD` and `gamD`. -/
noncomputable def var_step_ncx2_eta (p : Heston) (poisD : ℝ → ℕ) (gamD : ℝ → ℝ)
    (var_0 dt : ℝ) : ℝ × ℕ :=
  let pe := phi_exp p dt
  let pois := poisD (chi_nonc p var_0 dt / 2)
  ((pe.2 / pe.1) * 2 * gamD (chi_dim p / 2 + (pois : ℝ)), pois)

/-- `HestonMcAndersen2008.psi_c = 1.5`. -/
noncomputable def psi_c : ℝ := 1.5

/-- `HestonMcAndersen2008.var_step_qe`: Andersen's QE step for one path.
`zz` is the normal draw; `normCdf` models `scipy.stats.norm.cdf`. -/
noncomputable def var_step_qe (p : Heston) (normCdf : ℝ → ℝ) (var_0 dt zz : ℝ) : ℝ :=
  let mv := var_mv p var_0 dt
  let m := mv.1
  let s2 := mv.2
  let psi := s2 / m ^ 2
  if psi ≤ psi_c then
    let ins := 2 / psi
    let b2 := (ins - 1) + Real.sqrt (ins * (ins - 1))
    let a := m / (1 + b2)
    a * (Real.sqrt b2 + zz) ^ 2
  else
    let one_m_u := normCdf zz
    let one_m_p := 2 / (psi + 1)
    let beta := one_m_p / m
    if one_m_u ≤ one_m_p then Real.log (one_m_p / one_m_u) / beta else 0

/-- `HestonMcABC.cond_spot_sigma`: builds the conditional spot multiplier and
residual volatility from the abstract `cond_states` (an abstract method of the
class, supplied here as a function argument). -/
noncomputable def cond_spot_sigma (p : Heston) (condStates : ℝ → ℝ → ℝ × ℝ)
    (var_0 texp : ℝ) : ℝ × ℝ :=
  let st := condStates var_0 texp
  let var_final := st.1
  let var_avg := st.2
  let spot_cond := ((var_final - var_0) - p.mr * texp * (p.theta - var_avg)) / p.vov
      - 0.5 * p.rho * var_avg * texp
  (Real.exp (p.rho * spot_cond), Real.sqrt ((1.0 - p.rho ^ 2) / var_0 * var_avg))

/-- One-step advance used by `HestonMcAndersen2008.vol_paths` / `cond_states`:
the branch of the `if self.scheme < 2 / == 2 / == 3 / == 4` chain selected by
`scheme`, applied to the step's random draws.  `z`, `g`, `c` are the normal,
gamma and noncentral-chi-square draw streams, `pois` the Poisson draw stream,
`dts` the array `dt = np.diff(tobs, prepend=0)`. -/
noncomputable def stepOf (p : Heston) (normCdf : ℝ → ℝ) (z g c : ℕ → ℝ) (pois : ℕ → ℕ)
    (dts : ℕ → ℝ) (scheme : ℕ) : ℝ → ℕ → ℝ :=
  fun v i =>
    if scheme < 2 then var_step_euler p v (dts i) (z i) (scheme == 1)
    else if scheme = 2 then var_step_ncx2 p (fun _ _ => c i) v (dts i)
    else if scheme = 3 then (var_step_ncx2_eta p (fun _ => pois i) (fun _ => g i) v (dts i)).1
    else var_step_qe p normCdf v (dts i) (z i)

/-- The variance series `V_0, V_1, ..., V_{n_dt}` of one path
(`var_path` in `vol_paths`): `V_0 = var_0`, `V_{i+1} = step V_i i`. -/
noncomputable def varPath (step : ℝ → ℕ → ℝ) (var_0 : ℝ) : ℕ → ℝ
  | 0 => var_0
  | i + 1 => step (varPath step var_0 i) i

/-- `HestonMcAndersen2008.vol_paths` for one path: returns the variance series
`[V_0, ..., V_{n_dt}]`, or raises `Invalid scheme` for an unknown scheme. -/
noncomputable def vol_paths (p : Heston) (normCdf : ℝ → ℝ) (z g c : ℕ → ℝ) (pois : ℕ → ℕ)
    (dts : ℕ → ℝ) (scheme : ℕ) (n_dt : ℕ) : Except String (List ℝ) :=
  let path := (List.range (n_dt + 1)).map (varPath (stepOf p normCdf z g c pois dts scheme) p.sigma)
  if scheme < 2 then .ok path
  else if scheme = 2 then .ok path
  else if scheme = 3 then .ok path
  else if scheme = 4 then .ok path
  else .error s!"Invalid scheme: {scheme}"

/-- The un-normalized Simpson-style weight array built by
`HestonMcAndersen2008.cond_states`: `weight = ones(n_dt+1); weight[1:-1] = 2`. -/
noncomputable def rawWeight (n_dt i : ℕ) : ℝ :=
  if i = 0 ∨ i = n_dt then 1 else 2

/-- `weight.sum()` before normalization. -/
noncomputable def rawWeightSum (n_dt : ℕ) : ℝ :=
  ∑ i in Finset.range (n_dt + 1), rawWeight n_dt i

/-- The normalized weight `weight /= weight.sum()`. -/
noncomputable def weight (n_dt i : ℕ) : ℝ :=
  rawWeight n_dt i / rawWeightSum n_dt

/-- The incremental accumulation loop of `cond_states`: starting from
`var_avg = weight[0]*var_0`, each iteration advances the variance and adds
`weight[i+1] * var_t`.  Returns `(var_t, var_avg)` after `n` iterations. -/
noncomputable def accum_avg (step : ℝ → ℕ → ℝ) (w : ℕ → ℝ) (var_0 : ℝ) : ℕ → ℝ × ℝ
  | 0 => (var_0, w 0 * var_0)
  | n + 1 =>
    let prev := accum_avg step w var_0 n
    let vt := step prev.1 n
    (vt, prev.2 + w (n + 1) * vt)

/-- `HestonMcAndersen2008.cond_states` for one path.  The `if/elif` chain on
`self.scheme` has no `else` branch: for an unknown scheme no loop runs and the
initial values `(var_0, weight[0]*var_0)` are returned; no exception is ever
raised (hence every branch is `.ok`). -/
noncomputable def cond_states_andersen (p : Heston) (normCdf : ℝ → ℝ) (z g c : ℕ → ℝ)
    (pois : ℕ → ℕ) (dts : ℕ → ℝ) (scheme : ℕ) (var_0 : ℝ) (n_dt : ℕ) :
    Except String (ℝ × ℝ) :=
  let w := weight n_dt
  if scheme < 2 then
    .ok (accum_avg (fun v i => var_step_euler p v (dts i) (z i) (scheme == 1)) w var_0 n_dt)
  else if scheme = 2 then
    .ok (accum_avg (fun v i => var_step_ncx2 p (fun _ _ => c i) v (dts i)) w var_0 n_dt)
  else if scheme = 3 then
    .ok (accum_avg (fun v i => (var_step_ncx2_eta p (fun _ => pois i) (fun _ => g i) v (dts i)).1) w var_0 n_dt)
  else if scheme = 4 then
    .ok (accum_avg (fun v i => var_step_qe p normCdf v (dts i) (z i)) w var_0 n_dt)
  else
    .ok (var_0, w 0 * var_0)

/-- `HestonMcGlassermanKim2011.gamma_lambda`, entrywise: the pair
`(gamma_n, lambda_n)` for series index `n` (the source builds the arrays for
`n = 1, ..., kk`). -/
noncomputable def gamma_lambda (p : Heston) (dt : ℝ) (n : ℕ) : ℝ × ℝ :=
  let mrt2 := (p.mr * dt) ^ 2
  let vov2dt := p.vov ^ 2 * dt
  let n_2pi_2 := ((n : ℝ) * 2 * Real.pi) ^ 2
  ((mrt2 + n_2pi_2) / (2 * vov2dt), 4 * n_2pi_2 / vov2dt / (mrt2 + n_2pi_2))

/-- `HestonMcGlassermanKim2011.x1star_avgvar_mv`: mean and variance of the
truncated tail of `X1^*/dt`; for `kk > 0` the first `kk` series terms
`lambda_n/gamma_n` (resp. `2*lambda_n/gamma_n**2`) are subtracted from the
closed form.  The `if kk > 0` guard of the source is the empty sum here. -/
noncomputable def x1star_avgvar_mv (p : Heston) (dt : ℝ) (kk : ℕ) : ℝ × ℝ :=
  let mrt_h := p.mr * dt / 2
  let vov2dt := p.vov ^ 2 * dt
  let csch := 1 / Real.sinh mrt_h
  let coth := Real.cosh mrt_h * csch
  let mean := (coth / mrt_h - csch ^ 2) / 2
  let var := vov2dt * (coth / mrt_h ^ 3 + csch ^ 2 / mrt_h ^ 2 - 2 * coth * csch ^ 2 / mrt_h) / 8
  (mean - ∑ j in Finset.range kk, (gamma_lambda p dt (j + 1)).2 / (gamma_lambda p dt (j + 1)).1,
   var - 2 * ∑ j in Finset.range kk, (gamma_lambda p dt (j + 1)).2 / (gamma_lambda p dt (j + 1)).1 ^ 2)

/-- `HestonMcGlassermanKim2011.x2star_avgvar_mv`: mean and variance of the
truncated tail of `X2/dt` (shape 1); for `kk > 0` the first `kk` series terms
`1/gamma_n` (resp. `1/gamma_n**2`) are subtracted from the closed form. -/
noncomputable def x2star_avgvar_mv (p : Heston) (dt : ℝ) (kk : ℕ) : ℝ × ℝ :=
  let mrt_h := p.mr * dt / 2
  let vov2dt := p.vov ^ 2 * dt
  let csch := 1 / Real.sinh mrt_h
  let coth := Real.cosh mrt_h * csch
  let mean := vov2dt * (mrt_h * coth - 1) / (4 * mrt_h ^ 2)
  let var := vov2dt ^ 2 * (mrt_h * coth + mrt_h ^ 2 * csch ^ 2 - 2) / (16 * mrt_h ^ 4)
  (mean - ∑ j in Finset.range kk, 1 / (gamma_lambda p dt (j + 1)).1,
   var - ∑ j in Finset.range kk, 1 / (gamma_lambda p dt (j + 1)).1 ^ 2)

/-- `HestonMcGlassermanKim2011.eta_mv`: mean and variance of the Bessel count
`eta`; `besselI` models `scipy.special.iv`. -/
noncomputable def eta_mv (p : Heston) (besselI : ℝ → ℝ → ℝ) (var_0 var_t dt : ℝ) : ℝ × ℝ :=
  let pe := phi_exp p dt
  let zz := Real.sqrt (var_0 * var_t) * pe.1
  let iv_index := 0.5 * chi_dim p - 1
  let iv0 := besselI iv_index zz
  let iv1 := besselI (iv_index + 1) zz
  let iv2 := besselI (iv_index + 2) zz
  let mean := (zz / 2) * (iv1 / iv0)
  (mean, (zz / 2) ^ 2 * (iv2 / iv0) + mean - mean ^ 2)

/-- `HestonMcGlassermanKim2011.cond_avgvar_mv` with `eta=None` (the call used
by `HestonMcTseWan2013.cond_states`): conditional mean and variance of the
average variance. -/
noncomputable def cond_avgvar_mv (p : Heston) (besselI : ℝ → ℝ → ℝ)
    (var_0 var_t dt : ℝ) (kk : ℕ) : ℝ × ℝ :=
  let em := eta_mv p besselI var_0 var_t dt
  let x1 := x1star_avgvar_mv p dt kk
  let x2 := x2star_avgvar_mv p dt kk
  let x1_mean := x1.1 * (var_0 + var_t)
  let x1_var := x1.2 * (var_0 + var_t)
  let x23_mean := (2 * em.1 + chi_dim p / 2) * x2.1
  let x23_var := (2 * em.1 + chi_dim p / 2) * x2.2 + em.2 * (2 * x2.1) ^ 2
  (x1_mean + x23_mean, x1_var + x23_var)

/-- Running products continuing from the accumulated product `acc`. -/
def cumprodFrom (acc : ℝ) : List ℝ → List ℝ
  | [] => []
  | x :: xs => (acc * x) :: cumprodFrom (acc * x) xs

/-- Running products of a list (`np.cumprod`). -/
def cumprod (l : List ℝ) : List ℝ := cumprodFrom 1 l

/-- Running sums continuing from the accumulated sum `acc`. -/
def cumsumFrom (acc : ℝ) : List ℝ → List ℝ
  | [] => []
  | x :: xs => (acc + x) :: cumsumFrom (acc + x) xs

/-- Running sums of a list (`np.cumsum`). -/
def cumsum (l : List ℝ) : List ℝ := cumsumFrom 0 l

/-- The cumulative probability table built by
`HestonMcGlassermanKim2011.draw_eta`: row 0 is `p0`, rows 1..15 are the ratios
`zz**2 / (4*k*(k + iv_index))` for `k = 1..15` (`temp = np.arange(1, 16)`),
then `cumprod` followed by `cumsum`. -/
noncomputable def eta_table (p : Heston) (besselI : ℝ → ℝ → ℝ) (var_0 var_t dt : ℝ) :
    List ℝ :=
  let pe := phi_exp p dt
  let zz := Real.sqrt (var_0 * var_t) * pe.1
  let iv_index := 0.5 * chi_dim p - 1
  let p0 := Real.rpow (0.5 * zz) iv_index / (besselI iv_index zz * Real.Gamma (iv_index + 1))
  let ratios := (List.range 15).map (fun (k : ℕ) => zz ^ 2 / (4 * ((k : ℝ) + 1) * (((k : ℝ) + 1) + iv_index)))
  cumsum (cumprod (p0 :: ratios))

/-- `HestonMcGlassermanKim2011.draw_eta`: the sampled latent count is the
number of cumulative-table entries strictly below the uniform draw
(`eta = np.sum(p < rv_uni)`). -/
noncomputable def draw_eta (p : Heston) (besselI : ℝ → ℝ → ℝ) (var_0 var_t dt u : ℝ) : ℕ :=
  ((eta_table p besselI var_0 var_t dt).filter (fun x => decide (x < u))).length

/-- `count = (eta > i).sum()` in the redistribution loop of
`HestonMcGlassermanKim2011.cond_states`: the number of paths whose latent
count exceeds `i`. -/
def countAbove (n : ℕ) (eta : Fin n → ℕ) (i : ℕ) : ℕ :=
  (Finset.univ.filter (fun j => i < eta j)).card

/-- `eta.max()` over the paths (0 when there are no paths). -/
def etaMax (n : ℕ) (eta : Fin n → ℕ) : ℕ :=
  Finset.univ.sup eta

/-- The position of path `j` inside the slice `zz[total:total+count]` of
iteration `i`: the selected paths receive the slice in index order. -/
def sliceRank (n : ℕ) (eta : Fin n → ℕ) (i : ℕ) (j : Fin n) : ℕ :=
  (Finset.univ.filter (fun j' => i < eta j' ∧ j' < j)).card

/-- One iteration of the redistribution loop
(`var_avg[eta_above_i] += zz[total:total+count]; total += count`), acting on
the state `(var_avg, additions-per-path, total)`.  The instrumentation
`additions-per-path` counts how many pooled draws each path has received. -/
noncomputable def redistrib_step (n : ℕ) (eta : Fin n → ℕ) (zz : ℕ → ℝ) (i : ℕ)
    (st : (Fin n → ℝ) × (Fin n → ℕ) × ℕ) : (Fin n → ℝ) × (Fin n → ℕ) × ℕ :=
  (fun j => if i < eta j then st.1 j + zz (st.2.2 + sliceRank n eta i j) else st.1 j,
   fun j => if i < eta j then st.2.1 j + 1 else st.2.1 j,
   st.2.2 + countAbove n eta i)

/-- The full redistribution loop `for i in np.arange(eta.max())` of
`HestonMcGlassermanKim2011.cond_states`, started from the incoming `var_avg`
vector, zero per-path addition counts and `total = 0`. -/
noncomputable def redistrib (n : ℕ) (eta : Fin n → ℕ) (zz : ℕ → ℝ) (var_avg0 : Fin n → ℝ) :
    (Fin n → ℝ) × (Fin n → ℕ) × ℕ :=
  (List.range (etaMax n eta)).foldl (fun st i => redistrib_step n eta zz i st)
    (var_avg0, fun _ => 0, 0)

/-- The loop body of `HestonMcTseWan2013.cond_states` for one path, on the
state `(var_0, var_avg, used)` where `used` counts the random draws consumed
so far.  Each iteration first draws `var_step_ncx2_eta` (a Poisson draw and a
gamma draw: 2 draws), computes the conditional moments, and then dispatches on
`self.dist.lower()` (the Python string method `lower` is modelled by the
abstract function `lower`); the parametric approximating draw (`wald` /
`standard_gamma` / normal) is modelled by the stream value `d i` (1 draw).
An unrecognized `dist` raises `Incorrect distribution` at that point; the
error carries the number of draws consumed before it was raised. -/
noncomputable def tsewan_body (p : Heston) (besselI : ℝ → ℝ → ℝ)
    (lower : String → String) (dist : String)
    (dts : ℕ → ℝ) (pois : ℕ → ℕ) (g d : ℕ → ℝ) (i : ℕ) (st : ℝ × ℝ × ℕ) :
    Except (String × ℕ) (ℝ × ℝ × ℕ) :=
  let ve := var_step_ncx2_eta p (fun _ => pois i) (fun _ => g i) st.1 (dts i)
  let var_t := ve.1
  let used := st.2.2 + 2
  let mv := cond_avgvar_mv p besselI st.1 var_t (dts i) 0
  let m1 := mv.1
  let var := mv.2
  if lower dist = "ig" then
    .ok (var_t, st.2.1 + d i, used + 1)
  else if lower dist = "ga" then
    .ok (var_t, st.2.1 + (var / m1) * d i, used + 1)
  else if lower dist = "ln" then
    let scale := Real.sqrt (Real.log (1 + var / m1 ^ 2))
    .ok (var_t, st.2.1 + m1 * Real.exp (scale * (d i - scale / 2)), used + 1)
  else
    .error (s!"Incorrect distribution: {dist}.", used)

/-- The loop of `HestonMcTseWan2013.cond_states` over the first `n` steps. -/
noncomputable def tsewan_loop (p : Heston) (besselI : ℝ → ℝ → ℝ)
    (lower : String → String) (dist : String)
    (dts : ℕ → ℝ) (pois : ℕ → ℕ) (g d : ℕ → ℝ) (var_0 : ℝ) :
    ℕ → Except (String × ℕ) (ℝ × ℝ × ℕ)
  | 0 => .ok (var_0, 0, 0)
  | n + 1 => (tsewan_loop p besselI lower dist dts pois g d var_0 n).bind
      (tsewan_body p besselI lower dist dts pois g d n)

/-- `HestonMcTseWan2013.cond_states` for one path: run the loop over the
`n_dt` steps, then divide the accumulated `var_avg` by `n_dt`.  The result
also reports the number of random draws consumed (also on the error path). -/
noncomputable def cond_states_tsewan (p : Heston) (besselI : ℝ → ℝ → ℝ)
    (lower : String → String) (dist : String)
    (dts : ℕ → ℝ) (pois : ℕ → ℕ) (g d : ℕ → ℝ) (var_0 : ℝ) (n_dt : ℕ) :
    Except (String × ℕ) ((ℝ × ℝ) × ℕ) :=
  (tsewan_loop p besselI lower dist dts pois g d var_0 n_dt).map
    (fun st => ((st.1, st.2.1 / (n_dt : ℝ)), st.2.2))

/-- The concrete parameter set `mr = theta = vov = sigma = 1`, `rho = 0`,
used for concrete instantiations. -/
noncomputable def hestonUnit : Heston := ⟨1, 1, 1, 0, 1⟩

/-- Flooring a value at zero (`x[x < 0] = 0`) agrees with `max 0 x`. -/
theorem floor0_eq_max (x : ℝ) : (if x < 0 then 0 else x) = max 0 x := by
  rcases lt_or_le x 0 with h | h
  · rw [if_pos h, max_eq_left h.le]
  · rw [if_neg (not_lt.mpr h), max_eq_right h]

/-- Claim C1 (confirmed): for every path, given the pair
`(var_final, var_avg)` returned by `cond_states(var_0, texp)`,
`cond_spot_sigma` returns
`spot_cond = exp(rho * (((var_final - var_0) - mr*texp*(theta - var_avg))/vov
- 0.5*rho*var_avg*texp))` and
`sigma_cond = sqrt((1 - rho^2) * var_avg / var_0)`. -/
theorem C1_cond_spot_sigma (p : Heston) (condStates : ℝ → ℝ → ℝ × ℝ) (var_0 texp : ℝ) :
    cond_spot_sigma p condStates var_0 texp =
      (Real.exp (p.rho * (((condStates var_0 texp).1 - var_0
          - p.mr * texp * (p.theta - (condStates var_0 texp).2)) / p.vov
          - 0.5 * p.rho * (condStates var_0 texp).2 * texp)),
       Real.sqrt ((1 - p.rho ^ 2) * (condStates var_0 texp).2 / var_0)) := by
  simp only [cond_spot_sigma, Prod.mk.injEq]
  refine ⟨trivial, ?_⟩
  congr 1
  ring

/-- Claim C3 (confirmed): in `var_step_qe(var_0, dt)`, with
`(m, s2) = var_mv(var_0, dt)` and `psi = s2/m^2`: when `psi <= 1.5` the result
is `a*(sqrt(b2) + Z)^2` with `b2 = (2/psi - 1) + sqrt((2/psi)*(2/psi - 1))`
and `a = m/(1 + b2)`; when `psi > 1.5` the result is `0` if
`Phi(Z) > 1 - p = 2/(psi + 1)` and otherwise `ln((1 - p)/(1 - U))/beta` with
`beta = (1 - p)/m` and `1 - U = Phi(Z)`, the same normal draw mapped through
the standard normal CDF. -/
theorem C3_var_step_qe (p : Heston) (normCdf : ℝ → ℝ) (var_0 dt zz : ℝ) :
    var_step_qe p normCdf var_0 dt zz =
      (let m := (var_mv p var_0 dt).1
       let psi := (var_mv p var_0 dt).2 / m ^ 2
       if psi ≤ 1.5 then
         let b2 := (2 / psi - 1) + Real.sqrt ((2 / psi) * (2 / psi - 1))
         (m / (1 + b2)) * (Real.sqrt b2 + zz) ^ 2
       else if 2 / (psi + 1) < normCdf zz then 0
       else Real.log ((2 / (psi + 1)) / normCdf zz) / ((2 / (psi + 1)) / m)) := by
  simp only [var_step_qe, psi_c]
  split_ifs <;> first | rfl | linarith

/-- Claim C4 counterexample: with `mr = theta = vov = 1`, `var_0 = 1`,
`dt = 4` and a standard-normal draw value `Z = 1`, the code's Euler step
(which multiplies the draw by `vov*sqrt(var_0)` only) returns `2`, while the
claimed formula `var_prev + mr*(theta - var_prev)*dt +
vov*sqrt(var_prev)*Z*sqrt(dt)`, floored at zero, equals `3`. -/
theorem C4_counterexample :
    var_step_euler hestonUnit 1 4 1 false ≠
      max 0 (1 + hestonUnit.mr * (hestonUnit.theta - 1) * 4
        + hestonUnit.vov * Real.sqrt 1 * 1 * Real.sqrt 4) := by
  have h4 : Real.sqrt 4 = 2 := by
    rw [show (4 : ℝ) = 2 ^ 2 by norm_num, Real.sqrt_sq (by norm_num : (0:ℝ) ≤ 2)]
  have hmax : max (0:ℝ) 3 = 3 := max_eq_right (by norm_num)
  simp only [var_step_euler, hestonUnit, Real.sqrt_one, h4]
  norm_num [hmax]

/-- Claim C4 as amended (proved): `var_step_euler(var_0, dt)` computes
`var_next = var_prev + mr*(theta - var_prev)*dt + vov*sqrt(var_prev)*zz` where
`zz` is the normal-stream draw used as-is (no additional `sqrt(dt)` factor),
adds the Milstein correction `0.25*vov^2*(zz^2 - dt)` when `milstein=True`,
and floors the result at zero. -/
theorem C4_amended_var_step_euler (p : Heston) (var_0 dt zz : ℝ) (milstein : Bool) :
    var_step_euler p var_0 dt zz milstein =
      max 0 (var_0 + p.mr * (p.theta - var_0) * dt + p.vov * Real.sqrt var_0 * zz
        + (if milstein then 0.25 * p.vov ^ 2 * (zz ^ 2 - dt) else 0)) := by
  simp only [var_step_euler]
  cases milstein <;> simp only [if_true, if_false, Bool.false_eq_true, Bool.true_eq_false] <;>
    rw [floor0_eq_max] <;> congr 1 <;> ring

/-- Claim C8 (confirmed): `phi_exp(dt)` returns `exp = exp(-mr*dt/2)` and
`phi = (4*mr/vov^2)/(1/exp - exp)`; for `dt > 0`,
`chi_lambda(dt) = 4*sigma*mr/vov^2 / (exp(mr*dt) - 1)` and this equals
`sigma * exp * phi`, the noncentrality `chi_nonc` that `var_step_ncx2` passes
to the RNG when `var_0 = sigma`. -/
theorem C8_chi_lambda_phi_exp (p : Heston) (dt : ℝ)
    (hmr : 0 < p.mr) (hvov : 0 < p.vov) (hdt : 0 < dt) :
    phi_exp p dt = (4 * p.mr / p.vov ^ 2
        / (1 / Real.exp (-(p.mr * dt) / 2) - Real.exp (-(p.mr * dt) / 2)),
      Real.exp (-(p.mr * dt) / 2)) ∧
    chi_lambda p dt = 4 * p.sigma * p.mr / p.vov ^ 2 / (Real.exp (p.mr * dt) - 1) ∧
    chi_lambda p dt = p.sigma * (phi_exp p dt).2 * (phi_exp p dt).1 ∧
    chi_lambda p dt = chi_nonc p p.sigma dt := by
  set E := Real.exp (-(p.mr * dt) / 2) with hE
  have hEpos : 0 < E := Real.exp_pos _
  have hmrdt : 0 < p.mr * dt := mul_pos hmr hdt
  have hElt : E < 1 := by
    rw [hE]
    apply Real.exp_lt_one_iff.mpr
    linarith
  have hE2 : E ^ 2 = Real.exp (-(p.mr * dt)) := by
    rw [hE, sq, ← Real.exp_add]
    ring_nf
  have hexp : Real.exp (p.mr * dt) = (E ^ 2)⁻¹ := by
    rw [hE2, ← Real.exp_neg, neg_neg]
  have hE2lt : E ^ 2 < 1 := by nlinarith
  have hE2pos : 0 < E ^ 2 := by positivity
  have hEne : E ≠ 0 := ne_of_gt hEpos
  have hvne : p.vov ≠ 0 := ne_of_gt hvov
  have h1mE2 : (1 : ℝ) - E ^ 2 ≠ 0 := by nlinarith
  have hip : 0 < (E ^ 2)⁻¹ := inv_pos.mpr hE2pos
  have hinv2 : (1 : ℝ) < (E ^ 2)⁻¹ := by
    nlinarith [mul_inv_cancel₀ (ne_of_gt hE2pos)]
  have hinv1 : (1 : ℝ) < E⁻¹ := by
    have hip1 : 0 < E⁻¹ := inv_pos.mpr hEpos
    nlinarith [mul_inv_cancel₀ hEne]
  have hd1 : (E ^ 2)⁻¹ - 1 ≠ 0 := ne_of_gt (by linarith)
  have hd2 : 1 / E - E ≠ 0 := by
    rw [one_div]
    exact ne_of_gt (by linarith)
  have hkey : chi_lambda p dt = p.sigma * E * (4 * p.mr / p.vov ^ 2 / (1 / E - E)) := by
    unfold chi_lambda
    rw [hexp]
    have hz : -(E ^ 2 * p.vov ^ 2) + p.vov ^ 2 ≠ 0 := by
      have h9 : -(E ^ 2 * p.vov ^ 2) + p.vov ^ 2 = p.vov ^ 2 * (1 - E ^ 2) := by ring
      rw [h9]
      exact mul_ne_zero (pow_ne_zero 2 hvne) h1mE2
    field_simp
    linear_combination (-(4 * p.sigma * p.mr * E ^ 2)) * mul_inv_cancel₀ hz
  exact ⟨rfl, rfl, hkey, hkey⟩

/-- Witness for C8 at `mr = vov = sigma = 1`, `dt = 1`. -/
theorem C8_chi_lambda_phi_exp_witness :
    (0 : ℝ) < hestonUnit.mr ∧ (0 : ℝ) < hestonUnit.vov ∧ (0 : ℝ) < 1 ∧
    (phi_exp hestonUnit 1 = (4 * hestonUnit.mr / hestonUnit.vov ^ 2
        / (1 / Real.exp (-(hestonUnit.mr * 1) / 2) - Real.exp (-(hestonUnit.mr * 1) / 2)),
      Real.exp (-(hestonUnit.mr * 1) / 2)) ∧
    chi_lambda hestonUnit 1 = 4 * hestonUnit.sigma * hestonUnit.mr / hestonUnit.vov ^ 2
        / (Real.exp (hestonUnit.mr * 1) - 1) ∧
    chi_lambda hestonUnit 1
      = hestonUnit.sigma * (phi_exp hestonUnit 1).2 * (phi_exp hestonUnit 1).1 ∧
    chi_lambda hestonUnit 1 = chi_nonc hestonUnit hestonUnit.sigma 1) :=
  ⟨by norm_num [hestonUnit], by norm_num [hestonUnit], by norm_num,
    C8_chi_lambda_phi_exp hestonUnit 1 (by norm_num [hestonUnit]) (by norm_num [hestonUnit])
      (by norm_num)⟩

/-- `cumprodFrom` preserves length. -/
theorem cumprodFrom_length (l : List ℝ) : ∀ acc, (cumprodFrom acc l).length = l.length := by
  induction l with
  | nil => intro acc; rfl
  | cons x xs ih => intro acc; simp [cumprodFrom, ih]

/-- `cumsumFrom` preserves length. -/
theorem cumsumFrom_length (l : List ℝ) : ∀ acc, (cumsumFrom acc l).length = l.length := by
  induction l with
  | nil => intro acc; rfl
  | cons x xs ih => intro acc; simp [cumsumFrom, ih]

/-- Claim C10 (confirmed): the cumulative table of `draw_eta` has exactly 16
entries (`p0` plus the ratios for counts 1..15), the result counts the table
entries strictly below the uniform draw, and therefore the sampled latent
count is at most 16 for every input and every uniform draw. -/
theorem C10_draw_eta_le_16 (p : Heston) (besselI : ℝ → ℝ → ℝ) (var_0 var_t dt u : ℝ) :
    (eta_table p besselI var_0 var_t dt).length = 16 ∧
    draw_eta p besselI var_0 var_t dt u
      = ((eta_table p besselI var_0 var_t dt).filter (fun x => decide (x < u))).length ∧
    draw_eta p besselI var_0 var_t dt u ≤ 16 := by
  have hlen : (eta_table p besselI var_0 var_t dt).length = 16 := by
    unfold eta_table
    rw [cumsum, cumsumFrom_length, cumprod, cumprodFrom_length]
    rw [List.length_cons, List.length_map, List.length_range]
  refine ⟨hlen, rfl, ?_⟩
  unfold draw_eta
  exact le_trans (List.length_filter_le _ _) (le_of_eq hlen)

/-- A sum of strictly positive terms over `range` is strictly increasing in
the number of terms. -/
theorem sum_range_lt_of_pos (f : ℕ → ℝ) (hf : ∀ n, 0 < f n) (kk kk' : ℕ) (h : kk < kk') :
    ∑ j in Finset.range kk, f j < ∑ j in Finset.range kk', f j := by
  induction kk' with
  | zero => exact absurd h (Nat.not_lt_zero kk)
  | succ m ih =>
    rw [Finset.sum_range_succ]
    rcases Nat.lt_succ_iff_lt_or_eq.mp h with h2 | h2
    · exact lt_add_of_lt_of_pos (ih h2) (hf m)
    · rw [h2]
      exact lt_add_of_pos_right _ (hf m)

/-- For valid parameters every series entry `(gamma_n, lambda_n)`
(`n = 1, 2, ...`) of `gamma_lambda` is strictly positive. -/
theorem gamma_lambda_pos (p : Heston) (dt : ℝ) (_hmr : 0 < p.mr) (hvov : 0 < p.vov)
    (hdt : 0 < dt) (n : ℕ) :
    0 < (gamma_lambda p dt (n + 1)).1 ∧ 0 < (gamma_lambda p dt (n + 1)).2 := by
  unfold gamma_lambda
  have hc : (0 : ℝ) < ((n : ℕ) + 1 : ℕ) := by exact_mod_cast Nat.succ_pos n
  have hn2 : 0 < ((((n + 1 : ℕ)) : ℝ) * 2 * Real.pi) ^ 2 := by
    have hb : 0 < (((n + 1 : ℕ)) : ℝ) * 2 * Real.pi := by
      have : (0 : ℝ) < (((n + 1 : ℕ)) : ℝ) := by exact_mod_cast Nat.succ_pos n
      have h2 : (0 : ℝ) < Real.pi := Real.pi_pos
      nlinarith
    positivity
  have hvd : 0 < p.vov ^ 2 * dt := by positivity
  have hm2 : (0 : ℝ) ≤ (p.mr * dt) ^ 2 := sq_nonneg _
  constructor
  · exact div_pos (by linarith) (by linarith)
  · exact div_pos (div_pos (by linarith) hvd) (by linarith)

/-- Claim C9 (confirmed): for every `dt > 0`, both components of
`x1star_avgvar_mv(dt, kk)` and of `x2star_avgvar_mv(dt, kk)` decrease
strictly monotonically as the truncation order `kk` increases: each series
term `n` subtracts the strictly positive quantities `lambda_n/gamma_n`,
`2*lambda_n/gamma_n^2`, `1/gamma_n` and `1/gamma_n^2` (with
`gamma_n, lambda_n > 0` from `gamma_lambda`) from the untruncated closed
form, so the subtracted partial sums grow monotonically towards it from
below. -/
theorem C9_tail_moments_decrease (p : Heston) (dt : ℝ)
    (hmr : 0 < p.mr) (hvov : 0 < p.vov) (hdt : 0 < dt) (kk kk' : ℕ) (h : kk < kk') :
    (∀ n : ℕ, 0 < (gamma_lambda p dt (n + 1)).1 ∧ 0 < (gamma_lambda p dt (n + 1)).2) ∧
    (x1star_avgvar_mv p dt kk').1 < (x1star_avgvar_mv p dt kk).1 ∧
    (x1star_avgvar_mv p dt kk').2 < (x1star_avgvar_mv p dt kk).2 ∧
    (x2star_avgvar_mv p dt kk').1 < (x2star_avgvar_mv p dt kk).1 ∧
    (x2star_avgvar_mv p dt kk').2 < (x2star_avgvar_mv p dt kk).2 := by
  have hpos := gamma_lambda_pos p dt hmr hvov hdt
  refine ⟨hpos, ?_, ?_, ?_, ?_⟩
  · simp only [x1star_avgvar_mv]
    apply sub_lt_sub_left
    apply sum_range_lt_of_pos _ _ _ _ h
    intro n
    exact div_pos (hpos n).2 (hpos n).1
  · simp only [x1star_avgvar_mv]
    apply sub_lt_sub_left
    apply mul_lt_mul_of_pos_left _ (by norm_num : (0:ℝ) < 2)
    apply sum_range_lt_of_pos _ _ _ _ h
    intro n
    exact div_pos (hpos n).2 (pow_pos (hpos n).1 2)
  · simp only [x2star_avgvar_mv]
    apply sub_lt_sub_left
    apply sum_range_lt_of_pos _ _ _ _ h
    intro n
    exact div_pos one_pos (hpos n).1
  · simp only [x2star_avgvar_mv]
    apply sub_lt_sub_left
    apply sum_range_lt_of_pos _ _ _ _ h
    intro n
    exact div_pos one_pos (pow_pos (hpos n).1 2)

/-- State of the redistribution loop after the first `m` iterations: the
running `total` is the sum of the per-iteration counts, and each path `j` has
received one pooled draw for every iteration `i < m` with `i < eta j`. -/
theorem redistrib_fold_spec (n : ℕ) (eta : Fin n → ℕ) (zz : ℕ → ℝ) (var_avg0 : Fin n → ℝ)
    (m : ℕ) :
    ((List.range m).foldl (fun st i => redistrib_step n eta zz i st)
        (var_avg0, fun _ => 0, 0)).2.2 = ∑ i in Finset.range m, countAbove n eta i ∧
    ∀ j, ((List.range m).foldl (fun st i => redistrib_step n eta zz i st)
        (var_avg0, fun _ => 0, 0)).2.1 j
      = ((Finset.range m).filter (fun i => i < eta j)).card := by
  induction m with
  | zero => simp
  | succ m ih =>
    rw [List.range_succ, List.foldl_append]
    set st := List.foldl (fun st i => redistrib_step n eta zz i st)
      (var_avg0, fun _ => 0, 0) (List.range m) with hst
    refine ⟨?_, ?_⟩
    · simp only [List.foldl]
      rw [show (redistrib_step n eta zz m st).2.2 = st.2.2 + countAbove n eta m from rfl]
      rw [Finset.sum_range_succ, ih.1]
    · intro j
      simp only [List.foldl]
      rw [show (redistrib_step n eta zz m st).2.1 j
          = if m < eta j then st.2.1 j + 1 else st.2.1 j from rfl]
      rw [Finset.range_succ, Finset.filter_insert]
      by_cases hm : m < eta j
      · rw [if_pos hm, if_pos hm, Finset.card_insert_of_not_mem (by simp), ih.2 j]
      · rw [if_neg hm, if_neg hm, ih.2 j]

/-- Summing the per-iteration counts `(eta > i).sum()` for
`i = 0, ..., eta.max() - 1` gives `eta.sum()`. -/
theorem sum_countAbove (n : ℕ) (eta : Fin n → ℕ) :
    ∑ i in Finset.range (etaMax n eta), countAbove n eta i = ∑ j, eta j := by
  unfold countAbove
  have hcf : ∀ i, (Finset.univ.filter (fun j => i < eta j)).card
      = ∑ j : Fin n, if i < eta j then 1 else 0 := by
    intro i
    rw [Finset.card_filter]
  simp_rw [hcf]
  rw [Finset.sum_comm]
  apply Finset.sum_congr rfl
  intro j _
  rw [← Finset.card_filter]
  have hj : eta j ≤ etaMax n eta := Finset.le_sup (Finset.mem_univ j)
  have hfe : (Finset.range (etaMax n eta)).filter (fun i => i < eta j)
      = Finset.range (eta j) := by
    ext i
    simp only [Finset.mem_filter, Finset.mem_range]
    omega
  rw [hfe, Finset.card_range]

/-- Claim C7 (confirmed): over the pooled `eta.sum()` extra gamma-series
draws, the redistribution loop of `HestonMcGlassermanKim2011.cond_states`
distributes exactly `eta[j]` draws to each path `j`, the final `total` equals
`eta.sum()` (so the closing `assert eta.sum() == total` always holds and its
failure branch is unreachable). -/
theorem C7_redistribution (n : ℕ) (eta : Fin n → ℕ) (zz : ℕ → ℝ) (var_avg0 : Fin n → ℝ) :
    (redistrib n eta zz var_avg0).2.2 = ∑ j, eta j ∧
    ∀ j, (redistrib n eta zz var_avg0).2.1 j = eta j := by
  have hs := redistrib_fold_spec n eta zz var_avg0 (etaMax n eta)
  constructor
  · rw [redistrib, hs.1, sum_countAbove]
  · intro j
    rw [redistrib, hs.2 j]
    have hj : eta j ≤ etaMax n eta := Finset.le_sup (Finset.mem_univ j)
    have hfe : (Finset.range (etaMax n eta)).filter (fun i => i < eta j)
        = Finset.range (eta j) := by
      ext i
      simp only [Finset.mem_filter, Finset.mem_range]
      omega
    rw [hfe, Finset.card_range]

/-- For `mr, dt > 0` the factor `exp = exp(-mr*dt/2)` lies in `(0, 1)`. -/
theorem exp_half_mem (p : Heston) (dt : ℝ) (hmr : 0 < p.mr) (hdt : 0 < dt) :
    0 < Real.exp (-(p.mr * dt) / 2) ∧ Real.exp (-(p.mr * dt) / 2) < 1 := by
  refine ⟨Real.exp_pos _, Real.exp_lt_one_iff.mpr ?_⟩
  have : 0 < p.mr * dt := mul_pos hmr hdt
  linarith

/-- For valid parameters both components returned by `phi_exp` are
strictly positive. -/
theorem phi_exp_pos (p : Heston) (dt : ℝ) (hmr : 0 < p.mr) (hvov : 0 < p.vov)
    (hdt : 0 < dt) : 0 < (phi_exp p dt).1 ∧ 0 < (phi_exp p dt).2 := by
  obtain ⟨hE, hE1⟩ := exp_half_mem p dt hmr hdt
  unfold phi_exp
  refine ⟨?_, hE⟩
  apply div_pos (by positivity)
  have hinv : 1 < (Real.exp (-(p.mr * dt) / 2))⁻¹ := by
    have hip : 0 < (Real.exp (-(p.mr * dt) / 2))⁻¹ := inv_pos.mpr hE
    nlinarith [mul_inv_cancel₀ (ne_of_gt hE)]
  rw [one_div]
  linarith

/-- `var_step_euler` is always nonnegative (the step floors at zero). -/
theorem var_step_euler_nonneg (p : Heston) (var_0 dt zz : ℝ) (milstein : Bool) :
    0 ≤ var_step_euler p var_0 dt zz milstein := by
  simp only [var_step_euler]
  split_ifs with h1 h2 <;> first | rfl | linarith

/-- `var_step_ncx2` is nonnegative whenever the noncentral chi-square draw is
(its distribution is supported on `[0, ∞)`). -/
theorem var_step_ncx2_nonneg (p : Heston) (ncx2D : ℝ → ℝ → ℝ) (var_0 dt : ℝ)
    (hmr : 0 < p.mr) (hvov : 0 < p.vov) (hdt : 0 < dt)
    (hD : 0 ≤ ncx2D (chi_dim p) (chi_nonc p var_0 dt)) :
    0 ≤ var_step_ncx2 p ncx2D var_0 dt := by
  obtain ⟨hphi, hE⟩ := phi_exp_pos p dt hmr hvov hdt
  simp only [var_step_ncx2]
  exact mul_nonneg (div_nonneg hE.le hphi.le) hD

/-- The variance component of `var_step_ncx2_eta` is nonnegative whenever the
gamma draw is (its distribution is supported on `[0, ∞)`). -/
theorem var_step_ncx2_eta_nonneg (p : Heston) (poisD : ℝ → ℕ) (gamD : ℝ → ℝ)
    (var_0 dt : ℝ) (hmr : 0 < p.mr) (hvov : 0 < p.vov) (hdt : 0 < dt)
    (hD : ∀ s, 0 ≤ gamD s) :
    0 ≤ (var_step_ncx2_eta p poisD gamD var_0 dt).1 := by
  obtain ⟨hphi, hE⟩ := phi_exp_pos p dt hmr hvov hdt
  simp only [var_step_ncx2_eta]
  exact mul_nonneg (mul_nonneg (div_nonneg hE.le hphi.le) (by norm_num)) (hD _)

/-- For valid parameters and `var_0 ≥ 0` the one-step transition mean and
variance from `var_mv` are strictly positive. -/
theorem var_mv_pos (p : Heston) (var_0 dt : ℝ) (hmr : 0 < p.mr) (hth : 0 < p.theta)
    (hvov : 0 < p.vov) (hdt : 0 < dt) (hv : 0 ≤ var_0) :
    0 < (var_mv p var_0 dt).1 ∧ 0 < (var_mv p var_0 dt).2 := by
  simp only [var_mv]
  have hX : 0 < Real.exp (-(p.mr * dt)) := Real.exp_pos _
  have hX1 : Real.exp (-(p.mr * dt)) < 1 := by
    apply Real.exp_lt_one_iff.mpr
    have : 0 < p.mr * dt := mul_pos hmr hdt
    linarith
  set X := Real.exp (-(p.mr * dt)) with hXdef
  have hvX : 0 ≤ var_0 * X := mul_nonneg hv hX.le
  have h1X : 0 < 1 - X := by linarith
  constructor
  · nlinarith
  · apply mul_pos
    · nlinarith
    · exact div_pos (mul_pos (pow_pos hvov 2) h1X) hmr

/-- The QE step is nonnegative for valid parameters, `var_0 ≥ 0`, and any
normal draw, as long as the normal CDF value is positive (which holds for the
true standard normal CDF). -/
theorem var_step_qe_nonneg (p : Heston) (normCdf : ℝ → ℝ) (var_0 dt zz : ℝ)
    (hmr : 0 < p.mr) (hth : 0 < p.theta) (hvov : 0 < p.vov) (hdt : 0 < dt)
    (hv : 0 ≤ var_0) (hcdf : 0 < normCdf zz) :
    0 ≤ var_step_qe p normCdf var_0 dt zz := by
  obtain ⟨hm, hs2⟩ := var_mv_pos p var_0 dt hmr hth hvov hdt hv
  have hpsi : 0 < (var_mv p var_0 dt).2 / (var_mv p var_0 dt).1 ^ 2 :=
    div_pos hs2 (pow_pos hm 2)
  simp only [var_step_qe, psi_c]
  split_ifs with h1 h2
  · have hins : 1 < 2 / ((var_mv p var_0 dt).2 / (var_mv p var_0 dt).1 ^ 2) := by
      rw [lt_div_iff₀ hpsi]
      linarith
    have hb2 : 0 < (2 / ((var_mv p var_0 dt).2 / (var_mv p var_0 dt).1 ^ 2) - 1)
        + Real.sqrt ((2 / ((var_mv p var_0 dt).2 / (var_mv p var_0 dt).1 ^ 2))
          * (2 / ((var_mv p var_0 dt).2 / (var_mv p var_0 dt).1 ^ 2) - 1)) := by
      have := Real.sqrt_nonneg ((2 / ((var_mv p var_0 dt).2 / (var_mv p var_0 dt).1 ^ 2))
          * (2 / ((var_mv p var_0 dt).2 / (var_mv p var_0 dt).1 ^ 2) - 1))
      linarith
    apply mul_nonneg
    · exact (div_pos hm (by linarith)).le
    · exact sq_nonneg _
  · have hp1 : 0 < (var_mv p var_0 dt).2 / (var_mv p var_0 dt).1 ^ 2 + 1 := by linarith
    have homp : 0 < 2 / ((var_mv p var_0 dt).2 / (var_mv p var_0 dt).1 ^ 2 + 1) :=
      div_pos (by norm_num) hp1
    apply div_nonneg
    · apply Real.log_nonneg
      rw [le_div_iff₀ hcdf]
      linarith
    · exact (div_pos homp hm).le
  · rfl

/-- Every scheme branch of the one-step advance preserves nonnegativity of
the variance, given draws in the support of their distributions. -/
theorem stepOf_nonneg (p : Heston) (normCdf : ℝ → ℝ) (z g c : ℕ → ℝ) (pois : ℕ → ℕ)
    (dts : ℕ → ℝ) (scheme : ℕ) (hmr : 0 < p.mr) (hth : 0 < p.theta) (hvov : 0 < p.vov)
    (hdts : ∀ i, 0 < dts i) (hg : ∀ i, 0 ≤ g i) (hc : ∀ i, 0 ≤ c i)
    (hcdf : ∀ x, 0 < normCdf x) (v : ℝ) (i : ℕ) (hv : 0 ≤ v) :
    0 ≤ stepOf p normCdf z g c pois dts scheme v i := by
  unfold stepOf
  split_ifs
  · exact var_step_euler_nonneg p v (dts i) (z i) (scheme == 1)
  · exact var_step_ncx2_nonneg p (fun _ _ => c i) v (dts i) hmr hvov (hdts i) (hc i)
  · exact var_step_ncx2_eta_nonneg p (fun _ => pois i) (fun _ => g i) v (dts i)
      hmr hvov (hdts i) (fun _ => hg i)
  · exact var_step_qe_nonneg p normCdf v (dts i) (z i) hmr hth hvov (hdts i) hv (hcdf (z i))

/-- Every value along a simulated variance path is nonnegative. -/
theorem varPath_nonneg (p : Heston) (normCdf : ℝ → ℝ) (z g c : ℕ → ℝ) (pois : ℕ → ℕ)
    (dts : ℕ → ℝ) (scheme : ℕ) (var_0 : ℝ) (hmr : 0 < p.mr) (hth : 0 < p.theta)
    (hvov : 0 < p.vov) (hdts : ∀ i, 0 < dts i) (hg : ∀ i, 0 ≤ g i) (hc : ∀ i, 0 ≤ c i)
    (hcdf : ∀ x, 0 < normCdf x) (hv : 0 ≤ var_0) (i : ℕ) :
    0 ≤ varPath (stepOf p normCdf z g c pois dts scheme) var_0 i := by
  induction i with
  | zero => exact hv
  | succ i ih =>
    exact stepOf_nonneg p normCdf z g c pois dts scheme hmr hth hvov hdts hg hc hcdf _ i ih

/-- Claim C2 (confirmed): for all valid parameters (`mr, theta, vov,
sigma > 0`, `rho` in `[-1, 1]`) and every scheme, every variance value
produced by a one-step advance (`var_step_euler`, `var_step_ncx2`,
`var_step_ncx2_eta`, `var_step_qe`) is nonnegative — with draws in the
support of their distributions (nonnegative chi-square and gamma draws,
normal CDF values in `(0, 1)`) — and hence so is every intermediate and
terminal value of a simulated variance path; negative Euler/Milstein values
are floored at zero. -/
theorem C2_variance_nonneg (p : Heston) (normCdf : ℝ → ℝ)
    (hmr : 0 < p.mr) (hth : 0 < p.theta) (hvov : 0 < p.vov) (_hsig : 0 < p.sigma)
    (_hrho : -1 ≤ p.rho ∧ p.rho ≤ 1) (hcdf : ∀ x, 0 < normCdf x) :
    (∀ var_0 dt zz milstein, 0 ≤ var_step_euler p var_0 dt zz milstein) ∧
    (∀ (ncx2D : ℝ → ℝ → ℝ) var_0 dt, 0 < dt → (∀ df nonc, 0 ≤ ncx2D df nonc) →
      0 ≤ var_step_ncx2 p ncx2D var_0 dt) ∧
    (∀ (poisD : ℝ → ℕ) (gamD : ℝ → ℝ) var_0 dt, 0 < dt → (∀ s, 0 ≤ gamD s) →
      0 ≤ (var_step_ncx2_eta p poisD gamD var_0 dt).1) ∧
    (∀ var_0 dt zz, 0 < dt → 0 ≤ var_0 → 0 ≤ var_step_qe p normCdf var_0 dt zz) ∧
    (∀ (z g c : ℕ → ℝ) (pois : ℕ → ℕ) (dts : ℕ → ℝ) scheme var_0,
      (∀ i, 0 < dts i) → (∀ i, 0 ≤ g i) → (∀ i, 0 ≤ c i) → 0 ≤ var_0 →
      ∀ i, 0 ≤ varPath (stepOf p normCdf z g c pois dts scheme) var_0 i) := by
  refine ⟨?_, ?_, ?_, ?_, ?_⟩
  · exact fun var_0 dt zz milstein => var_step_euler_nonneg p var_0 dt zz milstein
  · exact fun ncx2D var_0 dt hdt hD =>
      var_step_ncx2_nonneg p ncx2D var_0 dt hmr hvov hdt (hD _ _)
  · exact fun poisD gamD var_0 dt hdt hD =>
      var_step_ncx2_eta_nonneg p poisD gamD var_0 dt hmr hvov hdt hD
  · exact fun var_0 dt zz hdt hv =>
      var_step_qe_nonneg p normCdf var_0 dt zz hmr hth hvov hdt hv (hcdf zz)
  · exact fun z g c pois dts scheme var_0 hdts hg hc hv i =>
      varPath_nonneg p normCdf z g c pois dts scheme var_0 hmr hth hvov hdts hg hc hcdf hv i

/-- Witness for C2 at `mr = theta = vov = sigma = 1`, `rho = 0`, with the
constant CDF value `1/2`. -/
theorem C2_variance_nonneg_witness :
    ((0 : ℝ) < hestonUnit.mr ∧ (0 : ℝ) < hestonUnit.theta ∧ (0 : ℝ) < hestonUnit.vov
      ∧ (0 : ℝ) < hestonUnit.sigma ∧ (-1 ≤ hestonUnit.rho ∧ hestonUnit.rho ≤ 1)
      ∧ (∀ x : ℝ, (0 : ℝ) < (fun _ : ℝ => (1 : ℝ) / 2) x)) ∧
    ((∀ var_0 dt zz milstein, 0 ≤ var_step_euler hestonUnit var_0 dt zz milstein) ∧
    (∀ (ncx2D : ℝ → ℝ → ℝ) var_0 dt, 0 < dt → (∀ df nonc, 0 ≤ ncx2D df nonc) →
      0 ≤ var_step_ncx2 hestonUnit ncx2D var_0 dt) ∧
    (∀ (poisD : ℝ → ℕ) (gamD : ℝ → ℝ) var_0 dt, 0 < dt → (∀ s, 0 ≤ gamD s) →
      0 ≤ (var_step_ncx2_eta hestonUnit poisD gamD var_0 dt).1) ∧
    (∀ var_0 dt zz, 0 < dt → 0 ≤ var_0 →
      0 ≤ var_step_qe hestonUnit (fun _ : ℝ => (1 : ℝ) / 2) var_0 dt zz) ∧
    (∀ (z g c : ℕ → ℝ) (pois : ℕ → ℕ) (dts : ℕ → ℝ) scheme var_0,
      (∀ i, 0 < dts i) → (∀ i, 0 ≤ g i) → (∀ i, 0 ≤ c i) → 0 ≤ var_0 →
      ∀ i, 0 ≤ varPath
        (stepOf hestonUnit (fun _ : ℝ => (1 : ℝ) / 2) z g c pois dts scheme) var_0 i)) :=
  ⟨⟨by norm_num [hestonUnit], by norm_num [hestonUnit], by norm_num [hestonUnit],
    by norm_num [hestonUnit], by norm_num [hestonUnit], fun x => by norm_num⟩,
   C2_variance_nonneg hestonUnit (fun _ : ℝ => (1 : ℝ) / 2) (by norm_num [hestonUnit])
     (by norm_num [hestonUnit]) (by norm_num [hestonUnit]) (by norm_num [hestonUnit])
     (by norm_num [hestonUnit]) (fun x => by norm_num)⟩

/-- The incremental loop of `cond_states` computes exactly the weighted sum
of the path values `V_0, ..., V_n` with weights `w`. -/
theorem accum_avg_spec (step : ℝ → ℕ → ℝ) (w : ℕ → ℝ) (var_0 : ℝ) (n : ℕ) :
    accum_avg step w var_0 n =
      (varPath step var_0 n, ∑ i in Finset.range (n + 1), w i * varPath step var_0 i) := by
  induction n with
  | zero => simp [accum_avg, varPath]
  | succ n ih => simp [accum_avg, ih, varPath, Finset.sum_range_succ]

/-- For `n_dt >= 1` the Simpson-style weights (endpoints 1, interior 2) sum
to `2 * n_dt`. -/
theorem rawWeightSum_eq (n : ℕ) (hn : 1 ≤ n) : rawWeightSum n = 2 * n := by
  unfold rawWeightSum rawWeight
  have hcong : ∀ i ∈ Finset.range (n + 1), (if i = 0 ∨ i = n then (1 : ℝ) else 2)
      = 2 - (if i = 0 then (1 : ℝ) else 0) - (if i = n then (1 : ℝ) else 0) := by
    intro i _
    by_cases i0 : i = 0
    · subst i0
      by_cases iN : (0 : ℕ) = n
      · exfalso
        omega
      · simp [iN]
        norm_num
    · by_cases iN : i = n
      · subst iN
        simp [i0]
        norm_num
      · simp [i0, iN]
  rw [Finset.sum_congr rfl hcong, Finset.sum_sub_distrib, Finset.sum_sub_distrib,
    Finset.sum_const, Finset.card_range]
  rw [Finset.sum_ite_eq' (Finset.range (n + 1)) 0 (fun _ => (1 : ℝ)),
    Finset.sum_ite_eq' (Finset.range (n + 1)) n (fun _ => (1 : ℝ))]
  rw [if_pos (Finset.mem_range.mpr (Nat.succ_pos n)),
    if_pos (Finset.mem_range.mpr (Nat.lt_succ_self n))]
  ring

/-- With the normalized weights, the accumulation loop yields the weighted
average of the path normalized by the total weight `2 * n`. -/
theorem accum_avg_eq_weighted (step : ℝ → ℕ → ℝ) (var_0 : ℝ) (n : ℕ) (hn : 1 ≤ n) :
    accum_avg step (weight n) var_0 n =
      (varPath step var_0 n,
       (∑ i in Finset.range (n + 1), rawWeight n i * varPath step var_0 i) / (2 * n)) := by
  rw [accum_avg_spec]
  refine congrArg _ ?_
  unfold weight
  rw [rawWeightSum_eq n hn, Finset.sum_div]
  apply Finset.sum_congr rfl
  intro i _
  ring

/-- Claim C6 (confirmed): over a grid of `n_dt >= 1` steps and for every valid
scheme, `HestonMcAndersen2008.cond_states` returns as `var_avg` the weighted
average of the `n_dt + 1` per-path variance values `V_0, ..., V_{n_dt}` with
endpoint weights 1, interior weights 2, normalized by the total weight
`2 * n_dt`, accumulated incrementally one step at a time. -/
theorem C6_cond_states_weighted_avg (p : Heston) (normCdf : ℝ → ℝ) (z g c : ℕ → ℝ)
    (pois : ℕ → ℕ) (dts : ℕ → ℝ) (scheme : ℕ) (var_0 : ℝ) (n_dt : ℕ)
    (hn : 1 ≤ n_dt) (hs : scheme ≤ 4) :
    cond_states_andersen p normCdf z g c pois dts scheme var_0 n_dt =
      .ok (varPath (stepOf p normCdf z g c pois dts scheme) var_0 n_dt,
        (∑ i in Finset.range (n_dt + 1),
            rawWeight n_dt i * varPath (stepOf p normCdf z g c pois dts scheme) var_0 i)
          / (2 * n_dt)) := by
  interval_cases scheme
  · have hstep : stepOf p normCdf z g c pois dts 0
        = fun v i => var_step_euler p v (dts i) (z i) ((0 : ℕ) == 1) := by
      funext v i
      simp [stepOf]
    simp only [cond_states_andersen, if_pos (by norm_num : (0 : ℕ) < 2)]
    rw [hstep] at *
    exact congrArg Except.ok (accum_avg_eq_weighted _ var_0 n_dt hn)
  · have hstep : stepOf p normCdf z g c pois dts 1
        = fun v i => var_step_euler p v (dts i) (z i) ((1 : ℕ) == 1) := by
      funext v i
      simp [stepOf]
    simp only [cond_states_andersen, if_pos (by norm_num : (1 : ℕ) < 2)]
    rw [hstep] at *
    exact congrArg Except.ok (accum_avg_eq_weighted _ var_0 n_dt hn)
  · have hstep : stepOf p normCdf z g c pois dts 2
        = fun v i => var_step_ncx2 p (fun _ _ => c i) v (dts i) := by
      funext v i
      simp [stepOf]
    simp only [cond_states_andersen, if_neg (by norm_num : ¬ (2 : ℕ) < 2),
      if_pos (rfl : (2 : ℕ) = 2)]
    rw [hstep] at *
    exact congrArg Except.ok (accum_avg_eq_weighted _ var_0 n_dt hn)
  · have hstep : stepOf p normCdf z g c pois dts 3
        = fun v i => (var_step_ncx2_eta p (fun _ => pois i) (fun _ => g i) v (dts i)).1 := by
      funext v i
      simp [stepOf]
    simp only [cond_states_andersen, if_neg (by norm_num : ¬ (3 : ℕ) < 2),
      if_neg (by norm_num : ¬ (3 : ℕ) = 2), if_pos (rfl : (3 : ℕ) = 3)]
    rw [hstep] at *
    exact congrArg Except.ok (accum_avg_eq_weighted _ var_0 n_dt hn)
  · have hstep : stepOf p normCdf z g c pois dts 4
        = fun v i => var_step_qe p normCdf v (dts i) (z i) := by
      funext v i
      simp [stepOf]
    simp only [cond_states_andersen, if_neg (by norm_num : ¬ (4 : ℕ) < 2),
      if_neg (by norm_num : ¬ (4 : ℕ) = 2), if_neg (by norm_num : ¬ (4 : ℕ) = 3),
      if_pos (rfl : (4 : ℕ) = 4)]
    rw [hstep] at *
    exact congrArg Except.ok (accum_avg_eq_weighted _ var_0 n_dt hn)

/-- Witness for C6 with the QE scheme, `n_dt = 2`, unit parameters and
constant draws. -/
theorem C6_cond_states_weighted_avg_witness :
    (1 : ℕ) ≤ 2 ∧ (4 : ℕ) ≤ 4 ∧
    cond_states_andersen hestonUnit (fun _ : ℝ => (1 : ℝ) / 2) (fun _ => 0) (fun _ => 0)
        (fun _ => 0) (fun _ => 0) (fun _ => 1) 4 1 2 =
      .ok (varPath (stepOf hestonUnit (fun _ : ℝ => (1 : ℝ) / 2) (fun _ => 0) (fun _ => 0)
            (fun _ => 0) (fun _ => 0) (fun _ => 1) 4) 1 2,
        (∑ i in Finset.range (2 + 1), rawWeight 2 i
            * varPath (stepOf hestonUnit (fun _ : ℝ => (1 : ℝ) / 2) (fun _ => 0) (fun _ => 0)
              (fun _ => 0) (fun _ => 0) (fun _ => 1) 4) 1 i) / (2 * ((2 : ℕ) : ℝ))) :=
  ⟨by norm_num, by norm_num,
   C6_cond_states_weighted_avg hestonUnit (fun _ : ℝ => (1 : ℝ) / 2) (fun _ => 0) (fun _ => 0)
     (fun _ => 0) (fun _ => 0) (fun _ => 1) 4 1 2 (by norm_num) (by norm_num)⟩

/-- With an unknown `dist` string, the TseWan loop fails on its first
iteration, after the two draws of `var_step_ncx2_eta` have been consumed. -/
theorem tsewan_loop_error (p : Heston) (besselI : ℝ → ℝ → ℝ)
    (lower : String → String) (dist : String)
    (dts : ℕ → ℝ) (pois : ℕ → ℕ) (g d : ℕ → ℝ) (var_0 : ℝ)
    (hd : lower dist ≠ "ig" ∧ lower dist ≠ "ga" ∧ lower dist ≠ "ln") :
    ∀ n, 1 ≤ n → tsewan_loop p besselI lower dist dts pois g d var_0 n
      = .error (s!"Incorrect distribution: {dist}.", 2) := by
  intro n hn
  induction n with
  | zero => omega
  | succ m ih =>
    rcases Nat.eq_zero_or_pos m with h0 | hpos
    · subst h0
      simp only [tsewan_loop, Except.bind]
      simp [tsewan_body, hd.1, hd.2.1, hd.2.2]
    · show (tsewan_loop p besselI lower dist dts pois g d var_0 m).bind _ = _
      rw [ih hpos]
      rfl

/-- Claim C5 counterexample: with the unknown scheme identifier 5 (not in
`{0,1,2,3,4}`), `HestonMcAndersen2008.cond_states` does not raise any
configuration error: it returns normally with the degenerate value
`(var_0, weight_0 * var_0) = (1, 1/4)` (here `n_dt = 2`), contradicting the
claim that every simulation entry point fails fast for an unknown scheme. -/
theorem C5_counterexample :
    cond_states_andersen hestonUnit (fun _ : ℝ => (1 : ℝ) / 2) (fun _ => 0) (fun _ => 0)
        (fun _ => 0) (fun _ => 0) (fun _ => 1) 5 1 2 = .ok (1, 1 / 4) := by
  have hsum : rawWeightSum 2 = 4 := by
    unfold rawWeightSum
    rw [show (2 : ℕ) + 1 = 3 from rfl]
    rw [Finset.sum_range_succ, Finset.sum_range_succ, Finset.sum_range_one]
    norm_num [rawWeight]
  simp only [cond_states_andersen, if_neg (by norm_num : ¬ (5 : ℕ) < 2),
    if_neg (by norm_num : ¬ (5 : ℕ) = 2), if_neg (by norm_num : ¬ (5 : ℕ) = 3),
    if_neg (by norm_num : ¬ (5 : ℕ) = 4)]
  rw [weight, hsum]
  norm_num [rawWeight]

/-- Claim C5 as amended (proved): `vol_paths` raises a `ValueError` naming an
unknown scheme identifier before any sampling, but
`HestonMcAndersen2008.cond_states` performs no scheme validation — for an
unknown scheme it silently returns the initial state `(var_0,
weight_0*var_0)` with no error and no sampling — and
`HestonMcTseWan2013.cond_states` raises a `ValueError` naming an unknown
distribution-family string, but only after the first step's variance
sampling has consumed its two random draws. -/
theorem C5_amended_config_errors (p : Heston) (normCdf : ℝ → ℝ) (z g c : ℕ → ℝ)
    (pois poisT : ℕ → ℕ) (dts : ℕ → ℝ) (besselI : ℝ → ℝ → ℝ)
    (lower : String → String) (gT dT : ℕ → ℝ)
    (scheme : ℕ) (dist : String) (var_0 : ℝ) (n_dt : ℕ)
    (hs : 4 < scheme)
    (hd : lower dist ≠ "ig" ∧ lower dist ≠ "ga" ∧ lower dist ≠ "ln")
    (hn : 1 ≤ n_dt) :
    vol_paths p normCdf z g c pois dts scheme n_dt
      = .error s!"Invalid scheme: {scheme}" ∧
    cond_states_andersen p normCdf z g c pois dts scheme var_0 n_dt
      = .ok (var_0, weight n_dt 0 * var_0) ∧
    cond_states_tsewan p besselI lower dist dts poisT gT dT var_0 n_dt
      = .error (s!"Incorrect distribution: {dist}.", 2) := by
  have h1 : ¬ scheme < 2 := by omega
  have h2 : ¬ scheme = 2 := by omega
  have h3 : ¬ scheme = 3 := by omega
  have h4 : ¬ scheme = 4 := by omega
  refine ⟨?_, ?_, ?_⟩
  · simp only [vol_paths, if_neg h1, if_neg h2, if_neg h3, if_neg h4]
  · simp only [cond_states_andersen, if_neg h1, if_neg h2, if_neg h3, if_neg h4]
  · rw [cond_states_tsewan, tsewan_loop_error p besselI lower dist dts poisT gT dT var_0 hd n_dt hn]
    rfl

/-- Witness for the amended C5: scheme identifier 7 and distribution string
`"xx"` on a one-step grid. -/
theorem C5_amended_config_errors_witness :
    (4 : ℕ) < 7 ∧
    ((fun s : String => s) "xx" ≠ "ig" ∧ (fun s : String => s) "xx" ≠ "ga"
      ∧ (fun s : String => s) "xx" ≠ "ln") ∧
    (1 : ℕ) ≤ 1 ∧
    (vol_paths hestonUnit (fun _ : ℝ => (1 : ℝ) / 2) (fun _ => 0) (fun _ => 0) (fun _ => 0)
        (fun _ => 0) (fun _ => 1) 7 1 = .error "Invalid scheme: 7" ∧
     cond_states_andersen hestonUnit (fun _ : ℝ => (1 : ℝ) / 2) (fun _ => 0) (fun _ => 0)
        (fun _ => 0) (fun _ => 0) (fun _ => 1) 7 1 1 = .ok (1, weight 1 0 * 1) ∧
     cond_states_tsewan hestonUnit (fun _ _ => 1) (fun s : String => s) "xx" (fun _ => 1)
        (fun _ => 0) (fun _ => 0) (fun _ => 0) 1 1
        = .error ("Incorrect distribution: xx.", 2)) :=
  ⟨by norm_num, ⟨by decide, by decide, by decide⟩, le_refl 1,
   C5_amended_config_errors hestonUnit (fun _ : ℝ => (1 : ℝ) / 2) (fun _ => 0) (fun _ => 0)
     (fun _ => 0) (fun _ => 0) (fun _ => 0) (fun _ => 1) (fun _ _ => 1) (fun s : String => s)
     (fun _ => 0) (fun _ => 0) 7 "xx" 1 1 (by norm_num)
     ⟨by decide, by decide, by decide⟩ (le_refl 1)⟩

/-- Witness for C9 at unit parameters, `dt = 1`, truncation orders `0 < 1`. -/
theorem C9_tail_moments_decrease_witness :
    (0 : ℝ) < hestonUnit.mr ∧ (0 : ℝ) < hestonUnit.vov ∧ (0 : ℝ) < 1 ∧ (0 : ℕ) < 1 ∧
    ((∀ n : ℕ, 0 < (gamma_lambda hestonUnit 1 (n + 1)).1
        ∧ 0 < (gamma_lambda hestonUnit 1 (n + 1)).2) ∧
     (x1star_avgvar_mv hestonUnit 1 1).1 < (x1star_avgvar_mv hestonUnit 1 0).1 ∧
     (x1star_avgvar_mv hestonUnit 1 1).2 < (x1star_avgvar_mv hestonUnit 1 0).2 ∧
     (x2star_avgvar_mv hestonUnit 1 1).1 < (x2star_avgvar_mv hestonUnit 1 0).1 ∧
     (x2star_avgvar_mv hestonUnit 1 1).2 < (x2star_avgvar_mv hestonUnit 1 0).2) :=
  ⟨by norm_num [hestonUnit], by norm_num [hestonUnit], by norm_num, by norm_num,
   C9_tail_moments_decrease hestonUnit 1 (by norm_num [hestonUnit])
     (by norm_num [hestonUnit]) (by norm_num) 0 1 (by norm_num)⟩
